import Mathlib

/-!
# Verification of the GFS retention policy of `de-stash-dump2s3.py`

This file gives a shallow embedding of the retention-date algorithm
(`generate_daily`, `generate_weekly`, `generate_monthly`, `save_days`),
the remote-folder listing (`list_s3_folders`) and the module-level
reconciliation loop of `de-stash-dump2s3.py`, and proves properties of
these definitions.

The Python source passes calendar dates around as `YYYY-MM-DD` strings,
parsing (`strptime`) and re-formatting (`strftime`) them at each step.
Since formatting and parsing are mutually inverse on valid dates, the
embedding works directly with date values.  `datetime - timedelta(days=n)`
is embedded as `n` iterations of the one-day predecessor `predDay` on the
proleptic Gregorian calendar (the calendar implemented by `datetime`).
-/

namespace DeStash

/-- Gregorian leap-year test, as implemented by Python's `datetime`. -/
def isLeap (y : Int) : Bool := y % 4 == 0 && (y % 100 != 0 || y % 400 == 0)

/-- Number of days in month `m` of year `y` (Gregorian calendar). -/
def daysInMonth (y : Int) (m : Nat) : Nat :=
  if m = 2 then (if isLeap y then 29 else 28)
  else if m = 4 ∨ m = 6 ∨ m = 9 ∨ m = 11 then 30
  else 31

/-- A calendar date.  The year is an `Int` so that walking backwards is
total; Python's `datetime` restricts years to `1..9999`, which is captured
by `Date.Valid` plus the fact that every run of the program only walks a
few months back from a real date. -/
structure Date where
  year : Int
  month : Nat
  day : Nat
  deriving DecidableEq, Repr

/-- A date that Python's `datetime` would accept (month and day in range). -/
def Date.Valid (d : Date) : Prop :=
  1 ≤ d.month ∧ d.month ≤ 12 ∧ 1 ≤ d.day ∧ d.day ≤ daysInMonth d.year d.month

instance (d : Date) : Decidable d.Valid :=
  decidable_of_iff
    (1 ≤ d.month ∧ d.month ≤ 12 ∧ 1 ≤ d.day ∧ d.day ≤ daysInMonth d.year d.month)
    Iff.rfl

/-- Chronological (lexicographic) strict order on dates. -/
def Date.lt (a b : Date) : Prop :=
  a.year < b.year ∨
    (a.year = b.year ∧ (a.month < b.month ∨ (a.month = b.month ∧ a.day < b.day)))

instance : LT Date := ⟨Date.lt⟩

instance (a b : Date) : Decidable (a < b) :=
  decidable_of_iff
    (a.year < b.year ∨
      (a.year = b.year ∧ (a.month < b.month ∨ (a.month = b.month ∧ a.day < b.day))))
    Iff.rfl

/-- Chronological order on dates. -/
def Date.le (a b : Date) : Prop := a < b ∨ a = b

instance : LE Date := ⟨Date.le⟩

instance (a b : Date) : Decidable (a ≤ b) :=
  inferInstanceAs (Decidable (a < b ∨ a = b))

theorem Date.lt_def (a b : Date) : a < b ↔
    (a.year < b.year ∨
      (a.year = b.year ∧ (a.month < b.month ∨ (a.month = b.month ∧ a.day < b.day)))) :=
  Iff.rfl

theorem Date.lt_trans {a b c : Date} (h1 : a < b) (h2 : b < c) : a < c := by
  have g1 := (Date.lt_def a b).mp h1
  have g2 := (Date.lt_def b c).mp h2
  rw [Date.lt_def]
  omega

theorem Date.lt_irrefl (a : Date) : ¬ a < a := by
  rintro (h | ⟨_, h | ⟨_, h⟩⟩) <;> omega

theorem Date.ne_of_lt {a b : Date} (h : a < b) : a ≠ b := by
  rintro rfl; exact Date.lt_irrefl a h

theorem Date.le_refl (a : Date) : a ≤ a := Or.inr rfl

theorem Date.lt_of_le_of_lt {a b c : Date} (h1 : a ≤ b) (h2 : b < c) : a < c := by
  rcases h1 with h1 | rfl
  · exact Date.lt_trans h1 h2
  · exact h2

theorem Date.lt_of_lt_of_le {a b c : Date} (h1 : a < b) (h2 : b ≤ c) : a < c := by
  rcases h2 with h2 | rfl
  · exact Date.lt_trans h1 h2
  · exact h1

theorem Date.le_trans {a b c : Date} (h1 : a ≤ b) (h2 : b ≤ c) : a ≤ c := by
  rcases h1 with h1 | rfl
  · exact Or.inl (Date.lt_of_lt_of_le h1 h2)
  · exact h2

theorem Date.le_of_lt {a b : Date} (h : a < b) : a ≤ b := Or.inl h

theorem daysInMonth_bounds (y : Int) (m : Nat) :
    28 ≤ daysInMonth y m ∧ daysInMonth y m ≤ 31 := by
  unfold daysInMonth
  split_ifs <;> omega

theorem daysInMonth_twelve (y : Int) : daysInMonth y 12 = 31 := by
  unfold daysInMonth
  norm_num

/-- One day before `d` (`d - timedelta(days=1)` of the source). -/
def predDay (d : Date) : Date :=
  if 1 < d.day then ⟨d.year, d.month, d.day - 1⟩
  else if 1 < d.month then ⟨d.year, d.month - 1, daysInMonth d.year (d.month - 1)⟩
  else ⟨d.year - 1, 12, 31⟩

/-- `d - timedelta(days=n)` of the source. -/
def subDays (d : Date) (n : Nat) : Date := predDay^[n] d

theorem predDay_lt (d : Date) : predDay d < d := by
  unfold predDay
  split_ifs with h1 h2 <;> (rw [Date.lt_def]; dsimp only; omega)

theorem predDay_valid {d : Date} (h : d.Valid) : (predDay d).Valid := by
  obtain ⟨h1, h2, h3, h4⟩ := h
  have hb := daysInMonth_bounds d.year (d.month - 1)
  have h12 := daysInMonth_twelve (d.year - 1)
  unfold Date.Valid predDay
  split_ifs with g1 g2 <;> dsimp only <;> omega

theorem subDays_zero (d : Date) : subDays d 0 = d := rfl

theorem subDays_succ (d : Date) (n : Nat) :
    subDays d (n + 1) = predDay (subDays d n) :=
  Function.iterate_succ_apply' predDay n d

theorem subDays_add (d : Date) (m n : Nat) :
    subDays d (m + n) = subDays (subDays d m) n := by
  unfold subDays
  rw [Nat.add_comm, Function.iterate_add_apply]

theorem subDays_valid {d : Date} (h : d.Valid) (n : Nat) : (subDays d n).Valid := by
  induction n with
  | zero => exact h
  | succ k ih => rw [subDays_succ]; exact predDay_valid ih

theorem subDays_lt (d : Date) {n : Nat} (h : 0 < n) : subDays d n < d := by
  induction n with
  | zero => omega
  | succ k ih =>
    rw [subDays_succ]
    rcases Nat.eq_zero_or_pos k with rfl | hk
    · exact predDay_lt d
    · exact Date.lt_trans (predDay_lt _) (ih hk)

theorem subDays_le (d : Date) (n : Nat) : subDays d n ≤ d := by
  rcases Nat.eq_zero_or_pos n with rfl | h
  · exact Date.le_refl d
  · exact Date.le_of_lt (subDays_lt d h)

theorem subDays_lt_subDays (d : Date) {m n : Nat} (h : m < n) :
    subDays d n < subDays d m := by
  have : subDays d n = subDays (subDays d m) (n - m) := by
    rw [← subDays_add]
    congr 1
    omega
  rw [this]
  exact subDays_lt _ (by omega)

theorem subDays_le_subDays (d : Date) {m n : Nat} (h : m ≤ n) :
    subDays d n ≤ subDays d m := by
  rcases Nat.eq_or_lt_of_le h with rfl | h
  · exact Date.le_refl _
  · exact Date.le_of_lt (subDays_lt_subDays d h)

/-- Walking back fewer days than the day-of-month stays inside the month. -/
theorem subDays_within_month (d : Date) {k : Nat} (h : k < d.day) :
    subDays d k = ⟨d.year, d.month, d.day - k⟩ := by
  induction k with
  | zero => rfl
  | succ j ih =>
    rw [subDays_succ, ih (by omega)]
    unfold predDay
    rw [if_pos (show 1 < (⟨d.year, d.month, d.day - j⟩ : Date).day by dsimp only; omega)]
    dsimp only
    rw [Nat.sub_sub]

/-- The last day of the month preceding the month of `d`
(`predDay` applied to the first of `d`'s month). -/
def monthEndBefore (d : Date) : Date := predDay ⟨d.year, d.month, 1⟩

theorem monthEndBefore_eq (d : Date) : monthEndBefore d =
    if 1 < d.month then ⟨d.year, d.month - 1, daysInMonth d.year (d.month - 1)⟩
    else ⟨d.year - 1, 12, 31⟩ := by
  unfold monthEndBefore predDay
  rw [if_neg (show ¬ 1 < (⟨d.year, d.month, 1⟩ : Date).day by dsimp only; omega)]

theorem monthEndBefore_day_bounds (d : Date) :
    28 ≤ (monthEndBefore d).day ∧ (monthEndBefore d).day ≤ 31 := by
  have hb := daysInMonth_bounds d.year (d.month - 1)
  rw [monthEndBefore_eq]
  split_ifs <;> dsimp only <;> omega

theorem monthEndBefore_valid (d : Date) (h1 : 1 ≤ d.month) (h2 : d.month ≤ 12) :
    (monthEndBefore d).Valid := by
  have hb := daysInMonth_bounds d.year (d.month - 1)
  have h12 := daysInMonth_twelve (d.year - 1)
  unfold Date.Valid
  rw [monthEndBefore_eq]
  split_ifs with g1 <;> dsimp only <;> omega

/-- Walking back exactly `d.day` days lands on the last day of the previous
month. -/
theorem subDays_day (d : Date) (h : 1 ≤ d.day) :
    subDays d d.day = monthEndBefore d := by
  have : d.day = (d.day - 1) + 1 := by omega
  rw [this, subDays_succ, subDays_within_month d (k := d.day - 1) (by omega)]
  unfold monthEndBefore
  congr 2
  omega

/-- Walking back past the start of the month, but not past the start of the
previous month. -/
theorem subDays_cross (d : Date) {k : Nat} (h0 : 1 ≤ d.day) (h1 : d.day ≤ k)
    (h2 : k < d.day + (monthEndBefore d).day) :
    subDays d k =
      ⟨(monthEndBefore d).year, (monthEndBefore d).month,
        (monthEndBefore d).day - (k - d.day)⟩ := by
  have hk : k = d.day + (k - d.day) := by omega
  rw [hk, subDays_add, subDays_day d h0,
    subDays_within_month (monthEndBefore d) (k := k - d.day) (by omega),
    Nat.add_sub_cancel_left]

/-- The source's weekly day-of-month anchors (`specific_days` in the code). -/
def specific_days : List Nat := [22, 15, 8, 1]

/-- `generate_daily` of the source: the reference date and the 6 preceding
days, newest first. -/
def generate_daily (input : Date) : List Date :=
  (List.range 7).map (fun i => subDays input i)

/-- `generate_weekly` of the source: subtract one day from the argument to
get the anchor, then walk backward day by day, collecting each date whose
day-of-month is in `specific_days`, until 4 dates are collected.

The source uses an unbounded `while` loop; for every valid date the loop
terminates within 100 iterations (consecutive anchor days of month are at
most 10 days apart), so the walk is embedded as the first 4 matches among
the first 100 backward steps. -/
def generate_weekly (input : Date) : List Date :=
  let anchor := predDay input
  ((((List.range 100).map (fun dc => subDays anchor dc)).filter
      (fun d => specific_days.contains d.day)).take 4)

/-- `temp_date.replace(day=1)` of the source. -/
def firstOfMonth (d : Date) : Date := ⟨d.year, d.month, 1⟩

/-- `temp_date.replace(month=previous_month, year=previous_year)` of the
source: step to the previous month (wrapping the year below January),
keeping the day-of-month (which is always 1 where the source uses it). -/
def prevMonthSame (d : Date) : Date :=
  if 1 < d.month then ⟨d.year, d.month - 1, d.day⟩ else ⟨d.year - 1, 12, d.day⟩

/-- `generate_monthly` of the source: subtract one day from the argument,
take the first of that month, then the firsts of the 2 preceding months
(the source's `while len(months) < 3` loop runs exactly twice). -/
def generate_monthly (input : Date) : List Date :=
  let a := predDay input
  let t0 := firstOfMonth a
  let t1 := prevMonthSame t0
  let t2 := prevMonthSame t1
  [t0, t1, t2]

/-- `save_days` of the source: the daily tier from the reference date, the
weekly tier from the last daily date, the monthly tier from the last weekly
date.  The source indexes the lists with `[-1]`, which errors on an empty
list; both lists are provably nonempty (`generate_daily` always returns 7
dates, `generate_weekly` returns 4 on every valid date), so the default
value of `getLastD` is never used. -/
def save_days (input : Date) : List Date :=
  let daily := generate_daily input
  let weekly := generate_weekly (daily.getLastD input)
  let monthly := generate_monthly (weekly.getLastD input)
  daily ++ weekly ++ monthly

/-!
## Characterising the weekly walk

Starting from an anchor with day-of-month `day`, and with `L` days in the
month before the anchor's month, the day-of-month seen `dc` steps back is
`wday day L dc` as long as the walk stays within those two months.  The
four anchor days `{22, 15, 8, 1}` are then hit exactly at the positions
`wpos day L`, all of which lie before the cutoff `wcut day L`.
-/

/-- Day-of-month after walking `dc` days back from a date with day-of-month
`day`, where the previous month has `L` days (defined for
`dc < day + L`). -/
def wday (day L dc : Nat) : Nat := if dc < day then day - dc else L - (dc - day)

/-- One past the position of the 4th anchor-day hit of the backward walk. -/
def wcut (day L : Nat) : Nat :=
  if 22 ≤ day then day
  else if 15 ≤ day then day + L - 21
  else if 8 ≤ day then day + L - 14
  else day + L - 7

/-- The positions (step counts) of the first 4 anchor-day hits of the
backward walk. -/
def wpos (day L : Nat) : List Nat :=
  if 22 ≤ day then [day - 22, day - 15, day - 8, day - 1]
  else if 15 ≤ day then [day - 15, day - 8, day - 1, day + L - 22]
  else if 8 ≤ day then [day - 8, day - 1, day + L - 22, day + L - 15]
  else [day - 1, day + L - 22, day + L - 15, day + L - 8]

theorem wpos_length (day L : Nat) : (wpos day L).length = 4 := by
  unfold wpos
  split_ifs <;> rfl

theorem wcut_le (day L : Nat) (h1 : day ≤ 31) (h2 : L ≤ 31) : wcut day L ≤ 62 := by
  unfold wcut
  split_ifs <;> omega

theorem wcut_le_day_add (day L : Nat) : wcut day L ≤ day + L := by
  unfold wcut
  split_ifs <;> omega

/-- Finite verification of the walk characterisation for every possible
day-of-month (1–31) and previous-month length (28–31). -/
theorem wpos_check : ∀ d0 ∈ List.range 31, ∀ l0 ∈ List.range 4,
    (List.range (wcut (d0 + 1) (l0 + 28))).filter
        (fun dc => specific_days.contains (wday (d0 + 1) (l0 + 28) dc))
      = wpos (d0 + 1) (l0 + 28) := by
  decide

theorem wpos_spec (day L : Nat) (hd1 : 1 ≤ day) (hd2 : day ≤ 31)
    (hL1 : 28 ≤ L) (hL2 : L ≤ 31) :
    (List.range (wcut day L)).filter (fun dc => specific_days.contains (wday day L dc))
      = wpos day L := by
  have h := wpos_check (day - 1) (List.mem_range.mpr (by omega))
    (L - 28) (List.mem_range.mpr (by omega))
  have e1 : day - 1 + 1 = day := by omega
  have e2 : L - 28 + 28 = L := by omega
  rw [e1, e2] at h
  exact h

theorem day_le_31 {d : Date} (h : d.Valid) : d.day ≤ 31 :=
  le_trans h.2.2.2 (daysInMonth_bounds d.year d.month).2

/-- The day-of-month seen `dc` steps back from a valid date `a` is
`wday a.day L dc`, for `dc` before the walk leaves the previous month. -/
theorem subDays_day_eq_wday (a : Date) (ha : a.Valid) {dc : Nat}
    (hdc : dc < a.day + (monthEndBefore a).day) :
    (subDays a dc).day = wday a.day (monthEndBefore a).day dc := by
  unfold wday
  split_ifs with hlt
  · rw [subDays_within_month a hlt]
  · rw [subDays_cross a ha.2.2.1 (by omega) hdc]

/-- Closed form of `generate_weekly` on valid input: the four collected
dates are the anchor walked back by the positions `wpos`. -/
theorem generate_weekly_eq (input : Date) (h : input.Valid) :
    generate_weekly input =
      (wpos (predDay input).day ((monthEndBefore (predDay input)).day)).map
        (fun dc => subDays (predDay input) dc) := by
  have ha : (predDay input).Valid := predDay_valid h
  set a := predDay input with ha_def
  set L := (monthEndBefore a).day with hL_def
  have hL := monthEndBefore_day_bounds a
  have hd1 : 1 ≤ a.day := ha.2.2.1
  have hd2 : a.day ≤ 31 := day_le_31 ha
  set n := wcut a.day L with hn_def
  have hn62 : n ≤ 62 := wcut_le a.day L hd2 hL.2
  have hnda : n ≤ a.day + L := wcut_le_day_add a.day L
  have hsplit : List.range 100 = List.range n ++ (List.range 100).drop n := by
    conv_lhs => rw [← List.take_append_drop n (List.range 100)]
    rw [List.take_range, Nat.min_def, if_pos (by omega)]
  have hpart1 : ((List.range n).map (fun dc => subDays a dc)).filter
      (fun d => specific_days.contains d.day) = (wpos a.day L).map (fun dc => subDays a dc) := by
    rw [List.filter_map]
    have hcong : ∀ dc ∈ List.range n,
        ((fun d : Date => specific_days.contains d.day) ∘ (fun dc => subDays a dc)) dc
          = (fun dc => specific_days.contains (wday a.day L dc)) dc := by
      intro dc hdc
      simp only [Function.comp_apply]
      rw [subDays_day_eq_wday a ha (by have := List.mem_range.mp hdc; omega)]
    rw [List.filter_congr hcong, wpos_spec a.day L hd1 hd2 hL.1 hL.2]
  show (((List.range 100).map (fun dc => subDays a dc)).filter
      (fun d => specific_days.contains d.day)).take 4 = _
  rw [hsplit, List.map_append, List.filter_append, hpart1]
  have hlen : ((wpos a.day L).map (fun dc => subDays a dc)).length = 4 := by
    rw [List.length_map, wpos_length]
  rw [List.take_left' hlen]

theorem generate_weekly_length (input : Date) (h : input.Valid) :
    (generate_weekly input).length = 4 := by
  rw [generate_weekly_eq input h, List.length_map, wpos_length]

/-- Every date collected by the weekly walk is some number of days before
the anchor `input - 1`. -/
theorem generate_weekly_mem_walk {input x : Date} (hx : x ∈ generate_weekly input) :
    ∃ dc : Nat, x = subDays (predDay input) dc := by
  unfold generate_weekly at hx
  have hx2 := List.mem_of_mem_take hx
  have hx3 := (List.mem_filter.mp hx2).1
  obtain ⟨dc, _, hdc⟩ := List.mem_map.mp hx3
  exact ⟨dc, hdc.symm⟩

theorem generate_weekly_mem_le {input x : Date} (hx : x ∈ generate_weekly input) :
    x ≤ predDay input := by
  obtain ⟨dc, rfl⟩ := generate_weekly_mem_walk hx
  exact subDays_le _ _

theorem generate_weekly_mem_valid {input x : Date} (h : input.Valid)
    (hx : x ∈ generate_weekly input) : x.Valid := by
  obtain ⟨dc, rfl⟩ := generate_weekly_mem_walk hx
  exact subDays_valid (predDay_valid h) _

theorem generate_weekly_mem_day {input x : Date} (hx : x ∈ generate_weekly input) :
    x.day ∈ specific_days := by
  unfold generate_weekly at hx
  have hx2 := List.mem_of_mem_take hx
  have hp := (List.mem_filter.mp hx2).2
  simpa [specific_days] using hp

theorem generate_weekly_pairwise (input : Date) :
    (generate_weekly input).Pairwise (fun a b => b < a) := by
  have hm : ((List.range 100).map (fun dc => subDays (predDay input) dc)).Pairwise
      (fun a b => b < a) := by
    rw [List.pairwise_map]
    exact (List.pairwise_lt_range 100).imp (fun hij => subDays_lt_subDays _ hij)
  exact List.Pairwise.sublist ((List.take_sublist 4 _).trans (List.filter_sublist _)) hm

/-- The last element of a strictly decreasing list is a lower bound for its
elements. -/
theorem pairwise_getLastD_le (d0 : Date) :
    ∀ (l : List Date), l.Pairwise (fun a b => b < a) →
      ∀ y ∈ l, l.getLastD d0 ≤ y := by
  intro l
  induction l with
  | nil => intro _ y hy; cases hy
  | cons a t ih =>
    intro hp y hy
    have ha : ∀ b ∈ t, b < a := fun b hb => List.rel_of_pairwise_cons hp hb
    have hp' := List.Pairwise.of_cons hp
    rw [List.getLastD_cons]
    cases t with
    | nil =>
      rcases List.mem_singleton.mp hy with rfl
      exact Date.le_refl y
    | cons b t' =>
      have hmem : (b :: t').getLastD a ∈ b :: t' := by
        have := List.getLastD_mem_cons t' b
        rw [List.getLastD_cons]
        exact this
      rcases List.mem_cons.mp hy with rfl | hy'
      · exact Date.le_of_lt (ha _ hmem)
      · exact ih hp' y hy'

theorem pairwise_getLastD_mem (d0 : Date) (l : List Date) (hne : l ≠ []) :
    l.getLastD d0 ∈ l := by
  cases l with
  | nil => exact absurd rfl hne
  | cons a t =>
    rw [List.getLastD_cons]
    exact List.getLastD_mem_cons t a

/-!
## The monthly tier
-/

/-- Linear index of the month of `d` (months of consecutive dates that are
firsts of consecutive months differ by 1, across year boundaries too). -/
def monthIndex (d : Date) : Int := 12 * d.year + (d.month : Int) - 1

theorem prevMonthSame_day (d : Date) : (prevMonthSame d).day = d.day := by
  unfold prevMonthSame
  split_ifs <;> rfl

theorem prevMonthSame_lt (d : Date) : prevMonthSame d < d := by
  unfold prevMonthSame
  split_ifs with h <;> (rw [Date.lt_def]; dsimp only; omega)

theorem monthIndex_prevMonthSame (d : Date) (h1 : 1 ≤ d.month) (h2 : d.month ≤ 12) :
    monthIndex (prevMonthSame d) = monthIndex d - 1 := by
  unfold monthIndex prevMonthSame
  split_ifs with h <;> dsimp only <;> omega

theorem prevMonthSame_valid {d : Date} (h : d.Valid) (hd : d.day = 1) :
    (prevMonthSame d).Valid := by
  obtain ⟨h1, h2, h3, h4⟩ := h
  have hb := daysInMonth_bounds d.year (d.month - 1)
  have h12 := daysInMonth_twelve (d.year - 1)
  unfold Date.Valid prevMonthSame
  split_ifs with g <;> dsimp only <;> omega

theorem firstOfMonth_day (d : Date) : (firstOfMonth d).day = 1 := rfl

theorem firstOfMonth_le {d : Date} (h : d.Valid) : firstOfMonth d ≤ d := by
  rcases Nat.eq_or_lt_of_le h.2.2.1 with he | hlt
  · refine Or.inr ?_
    have hf : firstOfMonth d = ⟨d.year, d.month, 1⟩ := rfl
    rw [hf, he]
  · refine Or.inl ?_
    rw [Date.lt_def]
    unfold firstOfMonth
    dsimp only
    omega

theorem firstOfMonth_valid {d : Date} (h : d.Valid) : (firstOfMonth d).Valid := by
  obtain ⟨h1, h2, h3, h4⟩ := h
  have hb := daysInMonth_bounds d.year d.month
  unfold Date.Valid firstOfMonth
  dsimp only
  omega

theorem generate_monthly_shape (input : Date) :
    generate_monthly input =
      [firstOfMonth (predDay input),
       prevMonthSame (firstOfMonth (predDay input)),
       prevMonthSame (prevMonthSame (firstOfMonth (predDay input)))] := rfl

theorem generate_monthly_length (input : Date) : (generate_monthly input).length = 3 := rfl

theorem generate_monthly_days (input : Date) :
    ∀ x ∈ generate_monthly input, x.day = 1 := by
  intro x hx
  rw [generate_monthly_shape] at hx
  simp only [List.mem_cons, List.not_mem_nil, or_false] at hx
  rcases hx with rfl | rfl | rfl
  · rfl
  · rw [prevMonthSame_day]; rfl
  · rw [prevMonthSame_day, prevMonthSame_day]; rfl

theorem generate_monthly_pairwise (input : Date) :
    (generate_monthly input).Pairwise (fun a b => b < a) := by
  rw [generate_monthly_shape]
  refine List.Pairwise.cons ?_ (List.Pairwise.cons ?_ (List.pairwise_singleton _ _))
  · intro b hb
    rcases List.mem_cons.mp hb with rfl | hb'
    · exact prevMonthSame_lt _
    · rcases List.mem_singleton.mp hb' with rfl
      exact Date.lt_trans (prevMonthSame_lt _) (prevMonthSame_lt _)
  · intro b hb
    rcases List.mem_singleton.mp hb with rfl
    exact prevMonthSame_lt _

/-- Every monthly date lies strictly before the anchor the monthly walk
started from. -/
theorem generate_monthly_mem_lt {input : Date} (h : input.Valid) :
    ∀ x ∈ generate_monthly input, x < input := by
  have ha : (predDay input).Valid := predDay_valid h
  have h0 : firstOfMonth (predDay input) ≤ predDay input := firstOfMonth_le ha
  have h0i : firstOfMonth (predDay input) < input :=
    Date.lt_of_le_of_lt h0 (predDay_lt input)
  intro x hx
  rw [generate_monthly_shape] at hx
  simp only [List.mem_cons, List.not_mem_nil, or_false] at hx
  rcases hx with rfl | rfl | rfl
  · exact h0i
  · exact Date.lt_trans (prevMonthSame_lt _) h0i
  · exact Date.lt_trans (Date.lt_trans (prevMonthSame_lt _) (prevMonthSame_lt _)) h0i

/-- The monthly tier visits three consecutive months, newest first. -/
theorem generate_monthly_chain {input : Date} (h : input.Valid) :
    (generate_monthly input).Chain'
      (fun a b => monthIndex b = monthIndex a - 1 ∧ b < a) := by
  have ha : (predDay input).Valid := predDay_valid h
  have h0 : (firstOfMonth (predDay input)).Valid := firstOfMonth_valid ha
  have h1 : (prevMonthSame (firstOfMonth (predDay input))).Valid :=
    prevMonthSame_valid h0 rfl
  rw [generate_monthly_shape]
  refine List.chain'_cons.mpr ⟨⟨?_, prevMonthSame_lt _⟩, ?_⟩
  · exact monthIndex_prevMonthSame _ h0.1 h0.2.1
  · refine List.chain'_cons.mpr ⟨⟨?_, prevMonthSame_lt _⟩, List.chain'_singleton _⟩
    exact monthIndex_prevMonthSame _ h1.1 h1.2.1

/-!
## Tier structure of `save_days`
-/

theorem generate_daily_length (input : Date) : (generate_daily input).length = 7 := by
  unfold generate_daily
  rw [List.length_map, List.length_range]

theorem generate_daily_getLastD (input : Date) :
    (generate_daily input).getLastD input = subDays input 6 := rfl

theorem generate_daily_pairwise (input : Date) :
    (generate_daily input).Pairwise (fun a b => b < a) := by
  unfold generate_daily
  rw [List.pairwise_map]
  exact (List.pairwise_lt_range 7).imp (fun hij => subDays_lt_subDays _ hij)

theorem generate_daily_nodup (input : Date) : (generate_daily input).Nodup :=
  (generate_daily_pairwise input).imp (fun h => (Date.ne_of_lt h).symm)

theorem generate_daily_mem (input x : Date) :
    x ∈ generate_daily input ↔ ∃ i, i < 7 ∧ x = subDays input i := by
  unfold generate_daily
  simp only [List.mem_map, List.mem_range]
  constructor
  · rintro ⟨i, hi, rfl⟩
    exact ⟨i, hi, rfl⟩
  · rintro ⟨i, hi, rfl⟩
    exact ⟨i, hi, rfl⟩

/-- `save_days` spelled out: the weekly walk starts from the last daily
date, the monthly walk from the last weekly date. -/
theorem save_days_unfold (input : Date) :
    save_days input =
      generate_daily input ++
        (generate_weekly (subDays input 6) ++
          generate_monthly ((generate_weekly (subDays input 6)).getLastD input)) := by
  show generate_daily input ++ generate_weekly ((generate_daily input).getLastD input) ++
      generate_monthly ((generate_weekly ((generate_daily input).getLastD input)).getLastD input)
    = _
  rw [generate_daily_getLastD, List.append_assoc]

theorem save_days_take7 (input : Date) :
    (save_days input).take 7 = generate_daily input := by
  rw [save_days_unfold]
  exact List.take_left' (generate_daily_length input)

theorem save_days_drop7 (input : Date) :
    (save_days input).drop 7 =
      generate_weekly (subDays input 6) ++
        generate_monthly ((generate_weekly (subDays input 6)).getLastD input) := by
  rw [save_days_unfold]
  exact List.drop_left' (generate_daily_length input)

theorem save_days_weekly_tier {input : Date} (h : input.Valid) :
    ((save_days input).drop 7).take 4 = generate_weekly (subDays input 6) := by
  rw [save_days_drop7]
  exact List.take_left' (generate_weekly_length _ (subDays_valid h 6))

theorem save_days_monthly_tier {input : Date} (h : input.Valid) :
    (save_days input).drop 11 =
      generate_monthly ((generate_weekly (subDays input 6)).getLastD input) := by
  rw [save_days_unfold, ← List.append_assoc]
  refine List.drop_left' ?_
  rw [List.length_append, generate_daily_length,
    generate_weekly_length _ (subDays_valid h 6)]

theorem save_days_length {input : Date} (h : input.Valid) :
    (save_days input).length = 14 := by
  rw [save_days_unfold, List.length_append, List.length_append,
    generate_daily_length, generate_weekly_length _ (subDays_valid h 6),
    generate_monthly_length]

/-- Every weekly-tier date lies on or before `input - 7` days. -/
theorem weekly_le_anchor {input : Date} {x : Date}
    (hx : x ∈ generate_weekly (subDays input 6)) : x ≤ subDays input 7 := by
  have := generate_weekly_mem_le hx
  rwa [← subDays_succ] at this

/-- The three tiers of `save_days` are strictly decreasing as one list:
in particular they are pairwise disjoint. -/
theorem save_days_pairwise {input : Date} (h : input.Valid) :
    (save_days input).Pairwise (fun a b => b < a) := by
  have hv6 : (subDays input 6).Valid := subDays_valid h 6
  set w := generate_weekly (subDays input 6) with hw
  set wLast := w.getLastD input with hwl
  have hwne : w ≠ [] := by
    have := generate_weekly_length _ hv6
    intro hemp
    rw [← hw] at this
    rw [hemp] at this
    simp at this
  have hwmem : wLast ∈ w := pairwise_getLastD_mem input w hwne
  have hwvalid : wLast.Valid := generate_weekly_mem_valid hv6 hwmem
  have hwmin : ∀ y ∈ w, wLast ≤ y :=
    pairwise_getLastD_le input w (generate_weekly_pairwise _)
  have hmon : ∀ x ∈ generate_monthly wLast, x < wLast :=
    generate_monthly_mem_lt hwvalid
  rw [save_days_unfold, ← hw, ← hwl]
  rw [List.pairwise_append]
  refine ⟨generate_daily_pairwise input, ?_, ?_⟩
  · rw [List.pairwise_append]
    refine ⟨generate_weekly_pairwise _, generate_monthly_pairwise _, ?_⟩
    intro a ha b hb
    exact Date.lt_of_lt_of_le (hmon b hb) (hwmin a ha)
  · intro a ha b hb
    obtain ⟨i, hi, rfl⟩ := (generate_daily_mem input a).mp ha
    have h76 : subDays input 7 < subDays input 6 := subDays_lt_subDays input (by omega)
    have h6i : subDays input 6 ≤ subDays input i := subDays_le_subDays input (by omega)
    have hb7 : b ≤ subDays input 7 := by
      rcases List.mem_append.mp hb with hbw | hbm
      · exact weekly_le_anchor hbw
      · have hblt : b < wLast := hmon b hbm
        have : wLast ≤ subDays input 7 := weekly_le_anchor hwmem
        exact Date.le_of_lt (Date.lt_of_lt_of_le hblt this)
    exact Date.lt_of_le_of_lt hb7 (Date.lt_of_lt_of_le h76 h6i)

theorem save_days_nodup {input : Date} (h : input.Valid) :
    (save_days input).Nodup :=
  (save_days_pairwise h).imp (fun hlt => (Date.ne_of_lt hlt).symm)

theorem save_days_card {input : Date} (h : input.Valid) :
    (save_days input).toFinset.card = 14 := by
  rw [List.toFinset_card_of_nodup (save_days_nodup h), save_days_length h]

/-!
## The reconciliation side

Object keys and folder names are Python strings; folder names always have
the shape `YYYY-MM-DD` produced by `strftime`, which is injective on valid
dates, so where only membership tests on folder names matter the folders
are modelled as the dates they denote.
-/

/-- The folders the module-level reconciliation loop issues deletions for:
every listed folder whose date is not in the keep-set
(`if folder not in keep_folders`). -/
def foldersToDelete (existing_folders keep_folders : List Date) : List Date :=
  existing_folders.filter (fun folder => !(keep_folders.contains folder))

/-- The per-folder deletion of the source (line 174-179): ONE unpaginated
`list_objects_v2` call for the folder and ONE `delete_objects` call whose
key list is exactly that call's `Contents`.  Modelled from the spec for
the store's behaviour: a listing call and a delete request are capped at
1000 keys, so the single listing call returns (at most) the first 1000 of
the folder's keys `keys`. -/
def deleteRequests {α : Type} (keys : List α) : List (List α) := [keys.take 1000]

/-- The reconciliation loop with the exit status threaded through to
`sys.exit`.  `deleteOutcome` abstracts the response of each
`delete_objects` call (`true` = the batched delete succeeded); the source
binds the response to `delete_response` without ever inspecting it, and
never modifies `exit_status` (set only by the upload phase) in this loop.
Returns the `(folder, outcome)` pairs of the attempted deletions together
with the exit status passed to `sys.exit`. -/
def reconcileLoop (exit_status : Int) (existing_folders keep_folders : List Date)
    (deleteOutcome : Date → Bool) : List (Date × Bool) × Int :=
  (existing_folders.foldl
     (fun acc folder =>
       if !(keep_folders.contains folder) then acc ++ [(folder, deleteOutcome folder)]
       else acc)
     [],
   exit_status)

theorem reconcileLoop_aux (keep_folders : List Date) (deleteOutcome : Date → Bool) :
    ∀ (l : List Date) (acc : List (Date × Bool)),
      l.foldl
          (fun acc folder =>
            if !(keep_folders.contains folder) then acc ++ [(folder, deleteOutcome folder)]
            else acc)
          acc
        = acc ++ (foldersToDelete l keep_folders).map (fun f => (f, deleteOutcome f)) := by
  intro l
  induction l with
  | nil => intro acc; simp [foldersToDelete]
  | cons a t ih =>
    intro acc
    unfold foldersToDelete at ih ⊢
    simp at ih
    by_cases hk : a ∈ keep_folders
    · simp [List.foldl_cons, List.filter_cons, hk, ih]
    · simp [List.foldl_cons, List.filter_cons, hk, ih]

/-- The loop attempts a deletion for exactly the folders outside the
keep-set (regardless of earlier outcomes) and leaves the exit status
untouched. -/
theorem reconcileLoop_run (exit_status : Int) (existing_folders keep_folders : List Date)
    (deleteOutcome : Date → Bool) :
    (reconcileLoop exit_status existing_folders keep_folders deleteOutcome).2 = exit_status ∧
    (reconcileLoop exit_status existing_folders keep_folders deleteOutcome).1 =
      (foldersToDelete existing_folders keep_folders).map (fun f => (f, deleteOutcome f)) := by
  refine ⟨rfl, ?_⟩
  show existing_folders.foldl _ [] = _
  rw [reconcileLoop_aux]
  simp

/-- Is `cs` exactly a 10-character `DDDD-DD-DD` digit pattern (the
`\d{4}-\d{2}-\d{2}` group of the source's regex)? -/
def isDateSeg (cs : List Char) : Bool :=
  match cs with
  | [c1, c2, c3, c4, h1, c5, c6, h2, c7, c8] =>
      c1.isDigit && c2.isDigit && c3.isDigit && c4.isDigit && (h1 == '-') &&
        c5.isDigit && c6.isDigit && (h2 == '-') && c7.isDigit && c8.isDigit
  | _ => false

/-- `re.match(rf'^{p}/(date)/', key)` of `list_s3_folders`, where `p` is
the destination folder: an anchored literal match of `p`, a slash, the
10-character date segment (the captured group, returned) and another
slash. -/
def extract_folder (p key : String) : Option String :=
  let pl := p.toList
  let kl := key.toList
  if kl.take pl.length = pl then
    match kl.drop pl.length with
    | '/' :: rest =>
        if isDateSeg (rest.take 10) && ((rest.drop 10).head? == some '/') then
          some (String.mk (rest.take 10))
        else none
    | _ => none
  else none

/-- `list_s3_folders` of the source.  The `while` loop follows
`NextContinuationToken` until `IsTruncated` is false, visiting the listing
page by page; a paginated listing is embedded as the list of its pages
(each page the `Contents` key list of one response).  Every matched date
segment is added to a set, which is returned sorted. -/
def folderInsert (p : String) (fs : Finset String) (key : String) : Finset String :=
  match extract_folder p key with
  | some f => insert f fs
  | none => fs

def list_s3_folders (p : String) (pages : List (List String)) : List String :=
  (pages.foldl (fun (fs : Finset String) (page : List String) => page.foldl (folderInsert p) fs)
      ∅).sort (fun a b => a ≤ b)

theorem foldl_pages {α β : Type} (g : β → α → β) :
    ∀ (pages : List (List α)) (init : β),
      pages.foldl (fun acc page => page.foldl g acc) init = pages.flatten.foldl g init := by
  intro pages
  induction pages with
  | nil => intro init; rfl
  | cons p ps ih =>
    intro init
    rw [List.foldl_cons, List.flatten_cons, List.foldl_append, ih]

/-!
## Spec-side definitions used to state and refute claims
-/

/-- The weekly walk exactly as the specification words it: from the given
anchor date, walk backward day by day, collecting each date whose
day-of-month is one of `{22, 15, 8, 1}`, stopping once 4 dates are
collected (with the same 100-step bound as `generate_weekly`). -/
def claimWeeklyWalk (anchor : Date) : List Date :=
  (((List.range 100).map (fun dc => subDays anchor dc)).filter
      (fun d => specific_days.contains d.day)).take 4

/-- §3 of the specification asserts that the cardinality of the retention
set is data-dependent, i.e. varies with the reference date; formalised
here so that it can be refuted. -/
def retentionCardDataDependent : Prop :=
  ∃ D1 D2 : Date, D1.Valid ∧ D2.Valid ∧
    (save_days D1).toFinset.card ≠ (save_days D2).toFinset.card

/-!
## Helpers for the last weekly date
-/

theorem generate_weekly_ne_nil {input : Date} (h : input.Valid) :
    generate_weekly input ≠ [] := by
  intro hemp
  have hlen := generate_weekly_length input h
  rw [hemp] at hlen
  simp at hlen

theorem weekly_getLastD_valid {D : Date} (h : D.Valid) :
    ((generate_weekly (subDays D 6)).getLastD D).Valid := by
  have hv6 : (subDays D 6).Valid := subDays_valid h 6
  exact generate_weekly_mem_valid hv6
    (pairwise_getLastD_mem D _ (generate_weekly_ne_nil hv6))

/-!
## The claims
-/

/-- C8: for every reference date `D`, the daily tier of the retention set
(the first 7 entries of `save_days D`) consists of exactly 7 distinct
dates, and a date belongs to it exactly when it is one of the 7 contiguous
dates `D, D-1, ..., D-6`. -/
theorem c8_daily_tier (D : Date) :
    ((save_days D).take 7).length = 7 ∧
    ((save_days D).take 7).Nodup ∧
    (∀ x : Date, x ∈ (save_days D).take 7 ↔ ∃ i, i < 7 ∧ x = subDays D i) := by
  rw [save_days_take7]
  exact ⟨generate_daily_length D, generate_daily_nodup D, generate_daily_mem D⟩

/-- C7: for every valid reference date, the weekly tier of the retention
set (entries 7-10 of `save_days`) contains exactly 4 dates, each with
day-of-month in `{22, 15, 8, 1}`, strictly decreasing in date value. -/
theorem c7_weekly_tier (D : Date) (h : D.Valid) :
    (((save_days D).drop 7).take 4).length = 4 ∧
    (∀ x ∈ ((save_days D).drop 7).take 4, x.day ∈ specific_days) ∧
    (((save_days D).drop 7).take 4).Pairwise (fun a b => b < a) := by
  rw [save_days_weekly_tier h]
  exact ⟨generate_weekly_length _ (subDays_valid h 6),
    fun x hx => generate_weekly_mem_day hx,
    generate_weekly_pairwise _⟩

theorem c7_weekly_tier_witness :
    Date.Valid ⟨2024, 3, 16⟩ ∧ (((save_days ⟨2024, 3, 16⟩).drop 7).take 4).length = 4 :=
  ⟨by decide, (c7_weekly_tier ⟨2024, 3, 16⟩ (by decide)).1⟩

/-- C1 counterexample: for reference date 2024-03-16 the weekly tier of
the retention set differs from the walk anchored at `today - 1 day`
claimed by the spec (the code starts the weekly walk at the last daily
date minus 1 day, i.e. `today - 7`, so the retention set keeps 2024-03-08
first while the claimed anchor would collect 2024-03-15 first). -/
theorem c1_weekly_anchor_counterexample :
    ((save_days ⟨2024, 3, 16⟩).drop 7).take 4 ≠ claimWeeklyWalk (predDay ⟨2024, 3, 16⟩) := by
  decide

/-- C1 (amended): for every valid reference date, the weekly tier of the
retention set is the claimed backward day-of-month walk, but anchored at
`today - 7` days (the last daily-tier date minus 1 day), not at
`today - 1`. -/
theorem c1_weekly_anchor (D : Date) (h : D.Valid) :
    ((save_days D).drop 7).take 4 = claimWeeklyWalk (subDays D 7) := by
  rw [save_days_weekly_tier h]
  have h7 : subDays D 7 = predDay (subDays D 6) := subDays_succ D 6
  rw [h7]
  rfl

theorem c1_weekly_anchor_witness :
    Date.Valid ⟨2024, 3, 15⟩ ∧
      ((save_days ⟨2024, 3, 15⟩).drop 7).take 4 = claimWeeklyWalk (subDays ⟨2024, 3, 15⟩ 7) :=
  ⟨by decide, c1_weekly_anchor ⟨2024, 3, 15⟩ (by decide)⟩

/-- C2: reconciliation never deletes a folder whose date is in the
keep-set: for every keep-set and every existing-folder set, the set of
folders a deletion is issued for is disjoint from the keep-set. -/
theorem c2_keep_never_deleted (existing keep : List Date) :
    (foldersToDelete existing keep).toFinset ∩ keep.toFinset = ∅ := by
  ext x
  simp [foldersToDelete]

/-- C3 counterexample: a folder with 1001 keys.  The single listing call
returns only the first 1000 keys and exactly one delete request is issued
with those keys, so key `1000` is under the folder but is covered by no
delete request — the requests do not cover every key of the folder. -/
theorem c3_batch_counterexample :
    1000 ∈ List.range 1001 ∧
      deleteRequests (List.range 1001) = [List.range 1000] ∧
      1000 ∉ List.range 1000 := by
  set_option maxRecDepth 100000 in decide

/-- C3 (amended): the reconciler issues exactly one delete request per
folder, consisting of the folder's first listing page: at most 1000 keys,
each of them a key of the folder (in order).  When the folder holds at
most 1000 keys the single request covers every key; keys beyond the first
1000 are not covered in the same run. -/
theorem c3_delete_requests {α : Type} (keys : List α) (r : List α)
    (hr : r ∈ deleteRequests keys) :
    r.length ≤ 1000 ∧ List.Sublist r keys ∧ (keys.length ≤ 1000 → r = keys) ∧
      (deleteRequests keys).length = 1 := by
  have hr2 : r ∈ [keys.take 1000] := hr
  rcases List.mem_singleton.mp hr2 with rfl
  refine ⟨?_, List.take_sublist 1000 keys, ?_, rfl⟩
  · rw [List.length_take]
    omega
  · intro hlen
    exact List.take_of_length_le hlen

theorem c3_delete_requests_witness :
    ([5, 7] : List Nat).length ≤ 1000 ∧ ([5, 7] : List Nat) = [5, 7] :=
  ⟨(c3_delete_requests [5, 7] [5, 7] (by decide)).1,
   (c3_delete_requests [5, 7] [5, 7] (by decide)).2.2.1 (by decide)⟩

/-- C4 counterexample: one existing folder outside the keep-set whose
batched delete fails.  The deletion is attempted (and its outcome
discarded), yet the run exits with status 0 — not the non-zero status the
claim requires when a deletion failed. -/
theorem c4_exit_status_counterexample :
    (reconcileLoop 0 [⟨2020, 1, 1⟩] [] (fun _ => false)).1 = [(⟨2020, 1, 1⟩, false)] ∧
    (reconcileLoop 0 [⟨2020, 1, 1⟩] [] (fun _ => false)).2 = 0 := by
  decide

/-- C4 (amended): the source ignores delete outcomes entirely: the loop
attempts a deletion for every folder outside the keep-set, whatever the
earlier outcomes (so it does continue past failures), but no failure is
recorded anywhere and the exit status handed to `sys.exit` is exactly the
status accumulated by the upload phase — a failed deletion never makes the
run exit non-zero. -/
theorem c4_exit_status (st : Int) (existing keep : List Date) (outcome : Date → Bool) :
    (reconcileLoop st existing keep outcome).2 = st ∧
    (reconcileLoop st existing keep outcome).1 =
      (foldersToDelete existing keep).map (fun f => (f, outcome f)) :=
  reconcileLoop_run st existing keep outcome

/-- C5 counterexample: the cardinality of the retention set does not
depend on the reference date — it is exactly 14 for every valid reference
date (the monthly tier is anchored strictly below the weekly tier and can
never overlap it), refuting the spec's assertion that the cardinality is
data-dependent. -/
theorem c5_card_counterexample : ¬ retentionCardDataDependent := by
  rintro ⟨D1, D2, h1, h2, hne⟩
  exact hne ((save_days_card h1).trans (save_days_card h2).symm)

/-- C5 (amended): for every valid reference date the retention set has
cardinality exactly 14 — inside the claimed 11-14 range, but a fixed
constant, because the monthly tier is computed from the last weekly date
(not independently) and never overlaps the daily or weekly tiers. -/
theorem c5_card (D : Date) (h : D.Valid) : (save_days D).toFinset.card = 14 :=
  save_days_card h

theorem c5_card_witness :
    Date.Valid ⟨2024, 3, 15⟩ ∧ (save_days ⟨2024, 3, 15⟩).toFinset.card = 14 :=
  ⟨by decide, c5_card ⟨2024, 3, 15⟩ (by decide)⟩

/-- C6: for every valid reference date, the monthly tier of the retention
set (the entries of `save_days` from index 11 on) is generated from the
last weekly-tier date minus 1 day: that date's first-of-month followed by
the firsts of the 2 preceding months (year rollover included) — exactly 3
dates, each the first day of a month, consecutive months, strictly
decreasing. -/
theorem c6_monthly_tier (D : Date) (h : D.Valid) :
    (save_days D).drop 11 =
      generate_monthly ((((save_days D).drop 7).take 4).getLastD D) ∧
    ((save_days D).drop 11).length = 3 ∧
    (∀ x ∈ (save_days D).drop 11, x.day = 1) ∧
    ((save_days D).drop 11).head? =
      some (firstOfMonth (predDay ((((save_days D).drop 7).take 4).getLastD D))) ∧
    ((save_days D).drop 11).Chain'
      (fun a b => monthIndex b = monthIndex a - 1 ∧ b < a) := by
  have hw := save_days_weekly_tier h
  have hm := save_days_monthly_tier h
  rw [hm, hw]
  refine ⟨rfl, generate_monthly_length _, generate_monthly_days _, ?_, ?_⟩
  · rw [generate_monthly_shape]
    rfl
  · exact generate_monthly_chain (weekly_getLastD_valid h)

theorem c6_monthly_tier_witness :
    Date.Valid ⟨2024, 7, 1⟩ ∧ ((save_days ⟨2024, 7, 1⟩).drop 11).length = 3 :=
  ⟨by decide, (c6_monthly_tier ⟨2024, 7, 1⟩ (by decide)).2.1⟩

/-- C9: a listing returned split across pages via continuation tokens
yields the same deduplicated, sorted folder list as a single unpaginated
listing containing the same object keys. -/
theorem c9_pagination (p : String) (pages : List (List String)) :
    list_s3_folders p pages = list_s3_folders p [pages.flatten] := by
  unfold list_s3_folders
  rw [foldl_pages (folderInsert p), foldl_pages (folderInsert p)]
  simp

/-- C10: for every valid reference date `D` the tiers of `save_days D` are
pairwise disjoint — the whole list is strictly decreasing, every weekly
date is on or before `D - 7` (below the daily range) and every monthly
date strictly precedes every weekly date — so the retention set always
holds exactly 14 distinct dates. -/
theorem c10_tiers_disjoint (D : Date) (h : D.Valid) :
    (save_days D).length = 14 ∧
    (save_days D).Pairwise (fun a b => b < a) ∧
    (save_days D).toFinset.card = 14 ∧
    (∀ x ∈ ((save_days D).drop 7).take 4, x ≤ subDays D 7) ∧
    (∀ x ∈ (save_days D).drop 11, ∀ y ∈ ((save_days D).drop 7).take 4, x < y) := by
  refine ⟨save_days_length h, save_days_pairwise h, save_days_card h, ?_, ?_⟩
  · intro x hx
    rw [save_days_weekly_tier h] at hx
    exact weekly_le_anchor hx
  · intro x hx y hy
    rw [save_days_monthly_tier h] at hx
    rw [save_days_weekly_tier h] at hy
    have hxlt : x < (generate_weekly (subDays D 6)).getLastD D :=
      generate_monthly_mem_lt (weekly_getLastD_valid h) x hx
    have hmin : (generate_weekly (subDays D 6)).getLastD D ≤ y :=
      pairwise_getLastD_le D _ (generate_weekly_pairwise _) y hy
    exact Date.lt_of_lt_of_le hxlt hmin

theorem c10_tiers_disjoint_witness :
    Date.Valid ⟨2025, 1, 5⟩ ∧ (save_days ⟨2025, 1, 5⟩).toFinset.card = 14 :=
  ⟨by decide, (c10_tiers_disjoint ⟨2025, 1, 5⟩ (by decide)).2.2.1⟩

end DeStash